import Mathlib

/-!
Verification of the `primitive-map-rs` core: a generic hash map parameterized
over a bucket strategy, a bucket-list strategy and a hasher.

The embedding follows `src/src/lib.rs` (the `PrimitiveMap` orchestrator) and
`src/src/bucket/buckets/vec.rs` (the chaining `VecBucket`).  The remaining
pieces of the crate (the `OptionBucket` single-slot bucket, the `BucketList`
probing search and the hasher) are not part of the sources; they are modelled
from the specification, as marked on each definition.

Machine integers (`usize`) are modelled as `Nat`; the only arithmetic the core
performs on them is hashing and compression modulo the bucket-list length, far
from any overflow boundary in the properties below.  The `expect` panic in
`PrimitiveMap::insert` is modelled as the `Except.error` outcome carrying the
source's panic message, keeping it distinct from the `Option.none` of a lookup
miss.
-/

set_option autoImplicit false

section Defs

variable {K V : Type} [DecidableEq K]

/-- Modelled from the spec: `DefaultHasher::compress` is not under `src/`.
The spec requires a deterministic, pure map from a hash value and the
bucket-list length into `[0, list_length)` and warns that addressing a
zero-length list divides by zero, so compression is remainder by the length. -/
def compress (h len : Nat) : Nat := h % len

/-- `PrimitiveMap::get_addr` (src/src/lib.rs lines 140-143): hash the key, then
compress by the current bucket-list length.  The hasher is a pure function
parameter, per the spec's `Hasher` contract (deterministic, stateless). -/
def get_addr (hash : K → Nat) (len : Nat) (k : K) : Nat := compress (hash k) len

/-- `Vec::swap_remove(i)`: swap the element at `i` with the last element, then
pop.  On lists: write the last element over position `i` and drop the last
position. -/
def swapRemove {α : Type} (l : List α) (i : Nat) : List α :=
  match l.getLast? with
  | none => []
  | some a => (l.set i a).dropLast

/-- `VecBucket::new` (src/src/bucket/buckets/vec.rs line 12-14):
`Vec::with_capacity(1)`, i.e. the empty bucket. -/
def VecBucket.new : List (K × V) := []

/-- `VecBucket::index_of` (src/src/bucket/buckets/vec.rs lines 35-42): index of
the first pair whose key equals `k`. -/
def VecBucket.index_of (b : List (K × V)) (k : K) : Option Nat :=
  match b with
  | [] => none
  | p :: rest => if p.1 = k then some 0 else (VecBucket.index_of rest k).map (· + 1)

/-- `VecBucket::insert` (src/src/bucket/buckets/vec.rs lines 16-20): the first
pair with this key, if any, is swap-removed and its value returned; the new
pair is pushed at the end. -/
def VecBucket.insert (b : List (K × V)) (k : K) (v : V) : Option V × List (K × V) :=
  match VecBucket.index_of b k with
  | some i => ((b.get? i).map Prod.snd, swapRemove b i ++ [(k, v)])
  | none => (none, b ++ [(k, v)])

/-- `VecBucket::get` (src/src/bucket/buckets/vec.rs lines 22-24): value of the
first pair whose key equals `k`. -/
def VecBucket.get (b : List (K × V)) (k : K) : Option V :=
  match b with
  | [] => none
  | p :: rest => if p.1 = k then some p.2 else VecBucket.get rest k

/-- `VecBucket::get_mut` (src/src/bucket/buckets/vec.rs lines 26-28): the same
first-matching-key lookup as `get`; the mutable reference it returns lets the
caller change only the found value, never a key. -/
def VecBucket.get_mut (b : List (K × V)) (k : K) : Option V :=
  match b with
  | [] => none
  | p :: rest => if p.1 = k then some p.2 else VecBucket.get_mut rest k

/-- `VecBucket::reached_max_capacity` (src/src/bucket/buckets/vec.rs lines
30-32): a chaining bucket is never full. -/
def VecBucket.reached_max_capacity (_b : List (K × V)) : Bool := false

/-- `Bucket::push` as called by `PrimitiveMap::insert` (src/src/lib.rs line
127).  Modelled from the spec: the trait source is not under `src/`; spec §4.4
step 3 delegates the insert to the bucket and the returned old value is
discarded. -/
def VecBucket.push (b : List (K × V)) (k : K) (v : V) : List (K × V) :=
  (VecBucket.insert b k v).2

/-- Modelled from the spec: `OptionBucket` is not under `src/`.  Spec §3: a
single-slot bucket is either empty or holds exactly one pair; `get` returns the
pair's value only if the slot is occupied and its key matches. -/
def OptionBucket.get (b : Option (K × V)) (k : K) : Option V :=
  match b with
  | some p => if p.1 = k then some p.2 else none
  | none => none

/-- Modelled from the spec: `OptionBucket::reached_max_capacity` is not under
`src/`.  The trait signature visible from src (`fn reached_max_capacity(&self)
-> bool`, implemented in vec.rs and called key-free in lib.rs line 125) takes
no key, so fullness can only be occupancy of the slot; the spec's "occupied by
a pair whose key differs from the key being tested" is not expressible in that
signature. -/
def OptionBucket.reached_max_capacity (b : Option (K × V)) : Bool := b.isSome

/-- Modelled from the spec: spec §3/§4.1, single-slot `insert` overwrites the
slot unconditionally; the map-level `push` discards the old value. -/
def OptionBucket.push (_b : Option (K × V)) (k : K) (v : V) : Option (K × V) :=
  some (k, v)

/-- The wrap-around probe order.  Modelled from the spec: the `BucketList`
implementations are not under `src/`; spec §4.2: starting at `start_address`,
scan forward through bucket indices wrapping modulo `len()`, each slot exactly
once. -/
def probeSeq (n addr : Nat) : List Nat :=
  (List.range n).map (fun off => (addr + off) % n)

/-- `BucketList::search` / `search_mut`.  Modelled from the spec (§4.2): return
the first bucket index in wrap-around probe order satisfying the predicate,
or nothing after a full cycle. -/
def probe (n addr : Nat) (p : Nat → Bool) : Option Nat :=
  (probeSeq n addr).find? p

/-- `PrimitiveMap::insert` (src/src/lib.rs lines 122-128) instantiated at the
chaining configuration (`VecBucket` buckets in a `Vec` bucket list): compute
the address, probe for a non-full bucket, push into it.  The `expect` panic on
probe failure is the `Except.error` outcome with the source's message. -/
def chainInsert (hash : K → Nat) (s : List (List (K × V))) (k : K) (v : V) :
    Except String (List (List (K × V))) :=
  let addr := get_addr hash s.length k
  match probe s.length addr (fun i => !VecBucket.reached_max_capacity (s.getD i [])) with
  | some i => Except.ok (s.set i (VecBucket.push (s.getD i []) k v))
  | none => Except.error "PrimitiveMap capacity is exhausted"

/-- `PrimitiveMap::get` (src/src/lib.rs lines 130-138) at the chaining
configuration: probe for a bucket containing the key, then fetch from it. -/
def chainGet (hash : K → Nat) (s : List (List (K × V))) (k : K) : Option V :=
  let addr := get_addr hash s.length k
  Option.bind (probe s.length addr (fun i => (VecBucket.get (s.getD i []) k).isSome))
    (fun i => VecBucket.get (s.getD i []) k)

/-- `PrimitiveMap::insert` (src/src/lib.rs lines 122-128) instantiated at the
single-slot configuration (`OptionBucket` buckets, fixed-length list). -/
def linInsert (hash : K → Nat) (s : List (Option (K × V))) (k : K) (v : V) :
    Except String (List (Option (K × V))) :=
  let addr := get_addr hash s.length k
  match probe s.length addr (fun i => !OptionBucket.reached_max_capacity (s.getD i none)) with
  | some i => Except.ok (s.set i (OptionBucket.push (s.getD i none) k v))
  | none => Except.error "PrimitiveMap capacity is exhausted"

/-- `PrimitiveMap::get` (src/src/lib.rs lines 130-138) at the single-slot
configuration. -/
def linGet (hash : K → Nat) (s : List (Option (K × V))) (k : K) : Option V :=
  let addr := get_addr hash s.length k
  Option.bind (probe s.length addr (fun i => (OptionBucket.get (s.getD i none) k).isSome))
    (fun i => OptionBucket.get (s.getD i none) k)

/-- Sequence of `PrimitiveMap::insert` calls, chaining configuration. -/
def chainInsertList (hash : K → Nat) (s : List (List (K × V))) :
    List (K × V) → Except String (List (List (K × V)))
  | [] => Except.ok s
  | kv :: rest =>
    match chainInsert hash s kv.1 kv.2 with
    | Except.ok s' => chainInsertList hash s' rest
    | Except.error e => Except.error e

/-- Sequence of `PrimitiveMap::insert` calls, single-slot configuration. -/
def linInsertList (hash : K → Nat) (s : List (Option (K × V))) :
    List (K × V) → Except String (List (Option (K × V)))
  | [] => Except.ok s
  | kv :: rest =>
    match linInsert hash s kv.1 kv.2 with
    | Except.ok s' => linInsertList hash s' rest
    | Except.error e => Except.error e

/-- A freshly constructed chaining map (`BucketListNew::initialized` with `n`
empty buckets). -/
def freshChain (K V : Type) (n : Nat) : List (List (K × V)) := List.replicate n []

/-- A freshly constructed single-slot map (`n` empty slots). -/
def freshLin (K V : Type) (n : Nat) : List (Option (K × V)) := List.replicate n none

/-- The bucket invariant of spec §3: no two stored pairs share a key. -/
abbrev NodupKeys (b : List (K × V)) : Prop := (b.map Prod.fst).Nodup

/-- Number of pairs with key `k` stored in one bucket. -/
def bucketCountKey (b : List (K × V)) (k : K) : Nat :=
  (b.filter (fun p => decide (p.1 = k))).length

/-- Number of pairs with key `k` stored in the whole chaining map. -/
def chainCountKey (s : List (List (K × V))) (k : K) : Nat :=
  (s.map (fun b => bucketCountKey b k)).sum

/-- Number of pairs with key `k` stored in the whole single-slot map. -/
def linCountKey (s : List (Option (K × V))) (k : K) : Nat :=
  (s.map (fun b => bucketCountKey b.toList k)).sum

/-- Induction invariant for the chaining configuration: each bucket holds
exactly the already-inserted pairs whose address is that bucket's index, with
no duplicated key inside a bucket. -/
def ChainInv (hash : K → Nat) (done : List (K × V)) (s : List (List (K × V))) : Prop :=
  ∀ j, j < s.length →
    NodupKeys (s.getD j []) ∧
    ∀ kv : K × V, kv ∈ s.getD j [] ↔ kv ∈ done ∧ get_addr hash s.length kv.1 = j

end Defs

section ProbeLemmas

theorem mem_probeSeq_lt {n addr i : Nat} (h : i ∈ probeSeq n addr) : i < n := by
  rcases List.mem_map.1 h with ⟨off, hoff, rfl⟩
  exact Nat.mod_lt _ (Nat.lt_of_le_of_lt (Nat.zero_le _) (List.mem_range.1 hoff))

theorem probe_some {n addr : Nat} {p : Nat → Bool} {i : Nat}
    (h : probe n addr p = some i) : i < n ∧ p i = true :=
  ⟨mem_probeSeq_lt (List.mem_of_find?_eq_some h), List.find?_some h⟩

theorem probeSeq_pos {n addr : Nat} (hn : 0 < n) :
    probeSeq n addr = (addr % n) :: (List.range (n - 1)).map (fun off => (addr + 1 + off) % n) := by
  obtain ⟨m, rfl⟩ : ∃ m, n = m + 1 := ⟨n - 1, by omega⟩
  simp only [probeSeq, List.range_succ_eq_map, List.map_cons, Nat.add_zero,
    Nat.add_sub_cancel, List.map_map]
  congr 1
  apply List.map_congr_left
  intro off _
  simp [Function.comp_def, Nat.add_comm, Nat.add_assoc, Nat.add_left_comm]

theorem probe_start {n addr : Nat} {p : Nat → Bool} (hn : 0 < n)
    (hp : p (addr % n) = true) : probe n addr p = some (addr % n) := by
  rw [probe, probeSeq_pos hn, List.find?_cons_of_pos _ hp]

theorem mem_probeSeq {n addr j : Nat} (hj : j < n) : j ∈ probeSeq n addr := by
  have hn : 0 < n := Nat.lt_of_le_of_lt (Nat.zero_le _) hj
  have h1 : addr % n < n := Nat.mod_lt _ hn
  refine List.mem_map.2 ⟨(j + n - addr % n) % n, List.mem_range.2 (Nat.mod_lt _ hn), ?_⟩
  have h2 : addr % n + (j + n - addr % n) = j + n := by omega
  calc (addr + (j + n - addr % n) % n) % n
      = (addr % n + (j + n - addr % n) % n) % n := (Nat.mod_add_mod _ _ _).symm
    _ = (addr % n + (j + n - addr % n)) % n := Nat.add_mod_mod _ _ _
    _ = (j + n) % n := by rw [h2]
    _ = j % n := Nat.add_mod_right _ _
    _ = j := Nat.mod_eq_of_lt hj

theorem probe_isSome {n addr j : Nat} {p : Nat → Bool} (hj : j < n)
    (hp : p j = true) : (probe n addr p).isSome = true := by
  cases h : probe n addr p with
  | some i => rfl
  | none =>
    have := List.find?_eq_none.1 h j (mem_probeSeq hj)
    simp [hp] at this

theorem probe_none {n addr : Nat} {p : Nat → Bool} (h : probe n addr p = none) :
    ∀ j, j < n → p j = false := by
  intro j hj
  have := List.find?_eq_none.1 h j (mem_probeSeq hj)
  simpa using this

end ProbeLemmas

section GetDLemmas

theorem getD_set_self {α : Type} (l : List α) (i : Nat) (a d : α) (h : i < l.length) :
    (l.set i a).getD i d = a := by
  induction l generalizing i with
  | nil => simp at h
  | cons x xs ih =>
    cases i with
    | zero => rfl
    | succ j => exact ih j (by simpa using h)

theorem getD_set_ne {α : Type} (l : List α) (i j : Nat) (a d : α) (h : i ≠ j) :
    (l.set i a).getD j d = l.getD j d := by
  induction l generalizing i j with
  | nil => rfl
  | cons x xs ih =>
    cases i with
    | zero => cases j with
      | zero => exact absurd rfl h
      | succ j' => rfl
    | succ i' => cases j with
      | zero => rfl
      | succ j' => exact ih i' j' (fun hc => h (by rw [hc]))

theorem getD_replicate {α : Type} (n j : Nat) (d : α) :
    (List.replicate n d).getD j d = d := by
  induction n generalizing j with
  | zero => rfl
  | succ m ih =>
    cases j with
    | zero => rfl
    | succ j' => exact ih j'

theorem getD_mem_of_lt {α : Type} (l : List α) (j : Nat) (d : α) (h : j < l.length) :
    l.getD j d ∈ l := by
  induction l generalizing j with
  | nil => simp at h
  | cons x xs ih =>
    cases j with
    | zero => exact List.mem_cons_self _ _
    | succ j' => exact List.mem_cons_of_mem _ (ih j' (by simpa using h))

end GetDLemmas

section ListSupport

theorem dropLast_cons_ne {α : Type} (x : α) (l : List α) (h : l ≠ []) :
    (x :: l).dropLast = x :: l.dropLast := by
  cases l with
  | nil => exact absurd rfl h
  | cons y t => rfl

theorem take_get_drop {α : Type} {l : List α} {i : Nat} {a : α} (h : l.get? i = some a) :
    l = l.take i ++ a :: l.drop (i + 1) := by
  induction l generalizing i with
  | nil => simp at h
  | cons x xs ih =>
    cases i with
    | zero =>
      simp only [List.get?] at h
      cases h
      simp
    | succ j =>
      have := ih (i := j) (by simpa using h)
      simpa using this

theorem swapRemove_eq {α : Type} (l : List α) (i : Nat) (h : l ≠ []) :
    swapRemove l i = (l.set i (l.getLast h)).dropLast := by
  unfold swapRemove
  rw [List.getLast?_eq_getLast l h]

theorem swapRemove_perm {α : Type} (l : List α) (i : Nat) (h : i < l.length) :
    (swapRemove l i).Perm (l.eraseIdx i) := by
  induction l generalizing i with
  | nil => simp at h
  | cons x l' ih =>
    cases l' with
    | nil =>
      have hi : i = 0 := by simpa using h
      subst hi
      simp [swapRemove, List.eraseIdx]
    | cons y t =>
      have hyt : (y :: t : List α) ≠ [] := by simp
      have hxyt : (x :: y :: t : List α) ≠ [] := by simp
      have ha : (x :: y :: t).getLast hxyt = (y :: t).getLast hyt := List.getLast_cons hyt
      cases i with
      | zero =>
        rw [swapRemove_eq _ _ hxyt]
        show (((x :: y :: t).getLast hxyt :: y :: t).dropLast).Perm _
        rw [dropLast_cons_ne _ _ hyt, ha]
        show (((y :: t).getLast hyt :: (y :: t).dropLast)).Perm (y :: t)
        have hsplit : (y :: t).dropLast ++ [(y :: t).getLast hyt] = y :: t :=
          List.dropLast_append_getLast hyt
        have hp : ((y :: t).getLast hyt :: (y :: t).dropLast).Perm
            ((y :: t).dropLast ++ [(y :: t).getLast hyt]) :=
          (List.perm_append_singleton _ _).symm
        rw [hsplit] at hp
        exact hp
      | succ j =>
        rw [swapRemove_eq _ _ hxyt]
        have hset : ((y :: t).set j ((x :: y :: t).getLast hxyt)) ≠ [] := by
          intro hc
          have := congrArg List.length hc
          simp at this
        show ((x :: (y :: t).set j ((x :: y :: t).getLast hxyt)).dropLast).Perm
          (x :: (y :: t).eraseIdx j)
        rw [dropLast_cons_ne _ _ hset]
        apply List.Perm.cons
        rw [ha, ← swapRemove_eq (y :: t) j hyt]
        exact ih j (by simpa using h)

end ListSupport

section VecBucketLemmas

variable {K V : Type} [DecidableEq K]

theorem index_of_none_iff {b : List (K × V)} {k : K} :
    VecBucket.index_of b k = none ↔ ∀ p ∈ b, p.1 ≠ k := by
  induction b with
  | nil => simp [VecBucket.index_of]
  | cons p rest ih =>
    by_cases hp : p.1 = k
    · simp [VecBucket.index_of, hp]
    · simp only [VecBucket.index_of, if_neg hp, Option.map_eq_none', ih, List.mem_cons]
      constructor
      · rintro hall q (rfl | hq)
        · exact hp
        · exact hall q hq
      · intro hall q hq
        exact hall q (Or.inr hq)

theorem index_of_some {b : List (K × V)} {k : K} {i : Nat}
    (h : VecBucket.index_of b k = some i) :
    ∃ v, b.get? i = some (k, v) ∧ ∀ p ∈ b.take i, p.1 ≠ k := by
  induction b generalizing i with
  | nil => simp [VecBucket.index_of] at h
  | cons p rest ih =>
    by_cases hp : p.1 = k
    · simp only [VecBucket.index_of, if_pos hp] at h
      cases h
      exact ⟨p.2, by simp [← hp], by simp⟩
    · simp only [VecBucket.index_of, if_neg hp, Option.map_eq_some'] at h
      obtain ⟨j, hj, rfl⟩ := h
      obtain ⟨v, hv, htake⟩ := ih hj
      refine ⟨v, by simpa using hv, ?_⟩
      intro q hq
      rw [List.take_succ_cons] at hq
      rcases List.mem_cons.1 hq with rfl | hq'
      · exact hp
      · exact htake q hq'

theorem get_eq_none_iff {b : List (K × V)} {k : K} :
    VecBucket.get b k = none ↔ ∀ p ∈ b, p.1 ≠ k := by
  induction b with
  | nil => simp [VecBucket.get]
  | cons p rest ih =>
    by_cases hp : p.1 = k
    · simp [VecBucket.get, hp]
    · simp only [VecBucket.get, if_neg hp, ih, List.mem_cons]
      constructor
      · rintro hall q (rfl | hq)
        · exact hp
        · exact hall q hq
      · intro hall q hq
        exact hall q (Or.inr hq)

theorem get_mem {b : List (K × V)} {k : K} {v : V} (h : VecBucket.get b k = some v) :
    (k, v) ∈ b := by
  induction b with
  | nil => simp [VecBucket.get] at h
  | cons p rest ih =>
    by_cases hp : p.1 = k
    · simp only [VecBucket.get, if_pos hp] at h
      cases h
      simp [← hp]
    · simp only [VecBucket.get, if_neg hp] at h
      exact List.mem_cons_of_mem _ (ih h)

theorem get_append_no_key {b1 b2 : List (K × V)} {k : K} (h : ∀ p ∈ b1, p.1 ≠ k) :
    VecBucket.get (b1 ++ b2) k = VecBucket.get b2 k := by
  induction b1 with
  | nil => rfl
  | cons p rest ih =>
    have hp : p.1 ≠ k := h p (List.mem_cons_self _ _)
    simp only [List.cons_append, VecBucket.get, if_neg hp]
    exact ih (fun q hq => h q (List.mem_cons_of_mem _ hq))

theorem get_of_mem_nodup {b : List (K × V)} {k : K} {v : V} (hnd : NodupKeys b)
    (h : (k, v) ∈ b) : VecBucket.get b k = some v := by
  induction b with
  | nil => simp at h
  | cons p rest ih =>
    rcases List.mem_cons.1 h with rfl | hmem
    · simp [VecBucket.get]
    · have hp : p.1 ≠ k := by
        intro hc
        have hk : p.1 ∈ rest.map Prod.fst :=
          List.mem_map.2 ⟨(k, v), hmem, hc.symm⟩
        exact (List.nodup_cons.1 hnd).1 hk
      simp only [VecBucket.get, if_neg hp]
      exact ih (List.nodup_cons.1 hnd).2 hmem

theorem mem_unique_nodup {b : List (K × V)} {k : K} {v w : V} (hnd : NodupKeys b)
    (hv : (k, v) ∈ b) (hw : (k, w) ∈ b) : v = w := by
  have h1 := get_of_mem_nodup hnd hv
  have h2 := get_of_mem_nodup hnd hw
  rw [h1] at h2
  exact Option.some.inj h2

theorem insert_fst (b : List (K × V)) (k : K) (v : V) :
    (VecBucket.insert b k v).1 = VecBucket.get b k := by
  induction b with
  | nil => rfl
  | cons p rest ih =>
    by_cases hp : p.1 = k
    · simp [VecBucket.insert, VecBucket.index_of, VecBucket.get, hp]
    · cases hrest : VecBucket.index_of rest k with
      | none =>
        simp [VecBucket.insert, VecBucket.index_of, hp, hrest, VecBucket.get,
          get_eq_none_iff.2 (index_of_none_iff.1 hrest)]
      | some j =>
        have hih : (VecBucket.insert rest k v).1 = VecBucket.get rest k := ih
        simp only [VecBucket.insert, hrest] at hih
        simp only [VecBucket.insert, VecBucket.index_of, if_neg hp, hrest, Option.map_some',
          VecBucket.get, if_neg hp]
        simpa using hih

theorem insert_decomp {b : List (K × V)} {k : K} (v : V) (hnd : NodupKeys b) :
    ∃ b2, (VecBucket.insert b k v).2 = b2 ++ [(k, v)] ∧ (∀ p ∈ b2, p.1 ≠ k) ∧
      NodupKeys b2 ∧ ∀ p ∈ b2, p ∈ b := by
  cases hio : VecBucket.index_of b k with
  | none =>
    exact ⟨b, by simp [VecBucket.insert, hio], index_of_none_iff.1 hio, hnd,
      fun p hp => hp⟩
  | some i =>
    obtain ⟨w, hw, _⟩ := index_of_some hio
    have hlt : i < b.length := by
      rcases List.get?_eq_some.1 hw with ⟨hl, _⟩
      exact hl
    have hperm := swapRemove_perm b i hlt
    have hsub : List.Sublist (b.eraseIdx i) b := List.eraseIdx_sublist b i
    have hdecomp : b = b.take i ++ (k, w) :: b.drop (i + 1) := take_get_drop hw
    have herase : b.eraseIdx i = b.take i ++ b.drop (i + 1) :=
      List.eraseIdx_eq_take_drop_succ b i
    have hnokey : ∀ p ∈ b.eraseIdx i, p.1 ≠ k := by
      have hnd' : ((b.take i ++ (k, w) :: b.drop (i + 1)).map Prod.fst).Nodup := by
        rw [← hdecomp]; exact hnd
      rw [List.map_append, List.map_cons] at hnd'
      have hmid := (List.nodup_middle.1 hnd')
      have hknot : k ∉ (b.take i).map Prod.fst ++ (b.drop (i + 1)).map Prod.fst :=
        (List.nodup_cons.1 hmid).1
      intro p hp hc
      rw [herase] at hp
      apply hknot
      rw [List.mem_append]
      rcases List.mem_append.1 hp with h1 | h1
      · exact Or.inl (List.mem_map.2 ⟨p, h1, hc⟩)
      · exact Or.inr (List.mem_map.2 ⟨p, h1, hc⟩)
    refine ⟨swapRemove b i, by simp [VecBucket.insert, hio], ?_, ?_, ?_⟩
    · intro p hp
      exact hnokey p (hperm.mem_iff.1 hp)
    · have hndE : NodupKeys (b.eraseIdx i) :=
        List.Nodup.sublist (hsub.map Prod.fst) hnd
      exact ((hperm.map Prod.fst).nodup_iff).2 hndE
    · intro p hp
      exact hsub.mem (hperm.mem_iff.1 hp)

theorem insert_nodup {b : List (K × V)} {k : K} {v : V} (hnd : NodupKeys b) :
    NodupKeys (VecBucket.insert b k v).2 := by
  obtain ⟨b2, heq, hnok, hnd2, _⟩ := insert_decomp v hnd
  rw [heq, NodupKeys, List.map_append, List.map_cons, List.map_nil]
  rw [List.nodup_append]
  refine ⟨hnd2, List.nodup_singleton _, ?_⟩
  intro a ha hb
  rcases List.mem_map.1 ha with ⟨p, hp, rfl⟩
  rcases List.mem_singleton.1 hb with h
  exact hnok p hp h

theorem insert_get_self {b : List (K × V)} {k : K} {v : V} (hnd : NodupKeys b) :
    VecBucket.get (VecBucket.insert b k v).2 k = some v := by
  obtain ⟨b2, heq, hnok, _, _⟩ := insert_decomp v hnd
  rw [heq, get_append_no_key hnok]
  simp [VecBucket.get]

theorem insert_countKey {b : List (K × V)} {k : K} {v : V} (hnd : NodupKeys b) :
    bucketCountKey (VecBucket.insert b k v).2 k = 1 := by
  obtain ⟨b2, heq, hnok, _, _⟩ := insert_decomp v hnd
  rw [heq, bucketCountKey, List.filter_append]
  have h1 : b2.filter (fun p => decide (p.1 = k)) = [] := by
    rw [List.filter_eq_nil_iff]
    intro p hp
    simpa using hnok p hp
  rw [h1]
  simp

end VecBucketLemmas

section ChainMapLemmas

variable {K V : Type} [DecidableEq K]

omit [DecidableEq K] in
theorem get_addr_lt {hash : K → Nat} {len : Nat} (k : K) (h : 0 < len) :
    get_addr hash len k < len := Nat.mod_lt _ h

theorem chainInsert_ok (hash : K → Nat) (s : List (List (K × V))) (k : K) (v : V)
    (h : 0 < s.length) :
    chainInsert hash s k v =
      Except.ok (s.set (get_addr hash s.length k)
        (VecBucket.push (s.getD (get_addr hash s.length k) []) k v)) := by
  have ha : get_addr hash s.length k < s.length := get_addr_lt k h
  have hmod : get_addr hash s.length k % s.length = get_addr hash s.length k :=
    Nat.mod_eq_of_lt ha
  simp only [chainInsert]
  rw [probe_start h (by simp [VecBucket.reached_max_capacity]), hmod]

theorem chainGet_at_addr {hash : K → Nat} {s : List (List (K × V))} {k : K} {v : V}
    (h : 0 < s.length)
    (hget : VecBucket.get (s.getD (get_addr hash s.length k) []) k = some v) :
    chainGet hash s k = some v := by
  have ha : get_addr hash s.length k < s.length := get_addr_lt k h
  have hmod : get_addr hash s.length k % s.length = get_addr hash s.length k :=
    Nat.mod_eq_of_lt ha
  simp only [chainGet]
  rw [probe_start h (by rw [hmod, hget]; rfl), hmod]
  simpa using hget

theorem chainInsert_preserves_nodup {hash : K → Nat} {s s' : List (List (K × V))}
    {k : K} {v : V} (hnd : ∀ b ∈ s, NodupKeys b)
    (hins : chainInsert hash s k v = Except.ok s') : ∀ b ∈ s', NodupKeys b := by
  simp only [chainInsert] at hins
  cases hp : probe s.length (get_addr hash s.length k)
      (fun i => !VecBucket.reached_max_capacity (s.getD i [])) with
  | none => rw [hp] at hins; cases hins
  | some i =>
    rw [hp] at hins
    cases hins
    intro b hb
    rcases List.mem_or_eq_of_mem_set hb with hmem | rfl
    · exact hnd b hmem
    · have hbi : NodupKeys (s.getD i []) := by
        by_cases hi : i < s.length
        · exact hnd _ (getD_mem_of_lt _ _ _ hi)
        · have : s.getD i [] = [] := by
            rw [List.getD_eq_getElem?_getD, List.getElem?_eq_none (by omega)]
            rfl
          rw [this]
          simp [NodupKeys]
      exact insert_nodup hbi

end ChainMapLemmas

section LinMapLemmas

variable {K V : Type} [DecidableEq K]

theorem filterMap_id_length_le {α : Type} (s : List (Option α)) :
    (s.filterMap id).length ≤ s.length := by
  induction s with
  | nil => simp
  | cons o rest ih =>
    cases o with
    | none => simpa using Nat.le_succ_of_le ih
    | some a => simpa using ih

theorem exists_empty_slot {α : Type} {s : List (Option α)}
    (h : (s.filterMap id).length < s.length) :
    ∃ j, j < s.length ∧ s.getD j none = none := by
  induction s with
  | nil => simp at h
  | cons o rest ih =>
    cases o with
    | none => exact ⟨0, by simp, rfl⟩
    | some a =>
      have h' : (rest.filterMap id).length < rest.length := by
        simpa using h
      obtain ⟨j, hj, hempty⟩ := ih h'
      exact ⟨j + 1, by simpa using hj, hempty⟩

theorem full_no_empty {α : Type} {s : List (Option α)}
    (h : (s.filterMap id).length = s.length) :
    ∀ j, j < s.length → (s.getD j none).isSome = true := by
  induction s with
  | nil => intro j hj; simp at hj
  | cons o rest ih =>
    cases o with
    | none =>
      exfalso
      have hle := filterMap_id_length_le rest
      have h' : (rest.filterMap id).length = rest.length + 1 := by simpa using h
      omega
    | some a =>
      intro j hj
      cases j with
      | zero => rfl
      | succ j' =>
        have h' : (rest.filterMap id).length = rest.length := by
          simpa using h
        exact ih h' j' (by simpa using hj)

theorem filterMap_set_none {α : Type} {s : List (Option α)} {j : Nat} {a : α}
    (hj : j < s.length) (hempty : s.getD j none = none) :
    ((s.set j (some a)).filterMap id).Perm (a :: s.filterMap id) := by
  induction s generalizing j with
  | nil => simp at hj
  | cons o rest ih =>
    cases j with
    | zero =>
      have : o = none := hempty
      subst this
      simp
    | succ j' =>
      cases o with
      | none =>
        simpa using ih (by simpa using hj) hempty
      | some b =>
        have hp := ih (j := j') (by simpa using hj) hempty
        simp only [List.set, List.filterMap_cons_some, id]
        exact (hp.cons b).trans (List.Perm.swap a b _)

omit [DecidableEq K] in
theorem linInsert_into_empty {hash : K → Nat} {s : List (Option (K × V))} {k : K} {v : V}
    (hne : ∃ j, j < s.length ∧ s.getD j none = none) :
    ∃ i, i < s.length ∧ s.getD i none = none ∧
      linInsert hash s k v = Except.ok (s.set i (some (k, v))) := by
  obtain ⟨j, hj, hempty⟩ := hne
  have hpj : (fun i => !OptionBucket.reached_max_capacity (s.getD i none)) j = true := by
    show (!OptionBucket.reached_max_capacity (s.getD j none)) = true
    rw [hempty]
    rfl
  have hsome := @probe_isSome s.length (get_addr hash s.length k) j
    (fun i => !OptionBucket.reached_max_capacity (s.getD i none)) hj hpj
  cases hp : probe s.length (get_addr hash s.length k)
      (fun i => !OptionBucket.reached_max_capacity (s.getD i none)) with
  | none => rw [hp] at hsome; simp at hsome
  | some i =>
    obtain ⟨hi, hpi⟩ := probe_some hp
    have hemptyi : s.getD i none = none := by
      simp only [OptionBucket.reached_max_capacity, Bool.not_eq_true'] at hpi
      cases hoo : s.getD i none with
      | none => rfl
      | some q => rw [hoo] at hpi; cases hpi
    refine ⟨i, hi, hemptyi, ?_⟩
    simp only [linInsert]
    rw [hp]
    rfl

omit [DecidableEq K] in
theorem linInsert_full {hash : K → Nat} {s : List (Option (K × V))}
    (hfull : ∀ j, j < s.length → (s.getD j none).isSome = true) (k : K) (v : V) :
    linInsert hash s k v = Except.error "PrimitiveMap capacity is exhausted" := by
  cases hp : probe s.length (get_addr hash s.length k)
      (fun i => !OptionBucket.reached_max_capacity (s.getD i none)) with
  | none =>
    simp only [linInsert]
    rw [hp]
  | some i =>
    obtain ⟨hi, hpi⟩ := probe_some hp
    simp only [OptionBucket.reached_max_capacity, Bool.not_eq_true'] at hpi
    rw [hfull i hi] at hpi
    cases hpi

theorem linGet_of_perm {hash : K → Nat} {s : List (Option (K × V))}
    {done : List (K × V)} {k : K} {v : V}
    (hperm : (s.filterMap id).Perm done) (hnd : NodupKeys done)
    (hmem : (k, v) ∈ done) : linGet hash s k = some v := by
  have hmem' : (k, v) ∈ s.filterMap id := hperm.mem_iff.2 hmem
  rcases List.mem_filterMap.1 hmem' with ⟨o, ho, hid⟩
  have ho' : o = some (k, v) := hid
  subst ho'
  rcases List.mem_iff_get?.1 ho with ⟨j, hj⟩
  have hjlt : j < s.length := (List.get?_eq_some.1 hj).1
  have hgetd : s.getD j none = some (k, v) := by
    rw [List.getD_eq_getElem?_getD, ← List.get?_eq_getElem?, hj]
    rfl
  have hpj : (fun i => (OptionBucket.get (s.getD i none) k).isSome) j = true := by
    show (OptionBucket.get (s.getD j none) k).isSome = true
    rw [hgetd]
    simp [OptionBucket.get]
  have hsome := @probe_isSome s.length (get_addr hash s.length k) j
    (fun i => (OptionBucket.get (s.getD i none) k).isSome) hjlt hpj
  cases hp : probe s.length (get_addr hash s.length k)
      (fun i => (OptionBucket.get (s.getD i none) k).isSome) with
  | none => rw [hp] at hsome; simp at hsome
  | some i =>
    obtain ⟨hi, hpi⟩ := probe_some hp
    cases hoi : s.getD i none with
    | none => rw [hoi] at hpi; simp [OptionBucket.get] at hpi
    | some q =>
      obtain ⟨a, w⟩ := q
      rw [hoi] at hpi
      by_cases hk : a = k
      · subst hk
        have hwmem : (a, w) ∈ s.filterMap id := by
          refine List.mem_filterMap.2 ⟨some (a, w), ?_, rfl⟩
          rw [← hoi]
          exact getD_mem_of_lt _ _ _ hi
        have hwdone : (a, w) ∈ done := hperm.mem_iff.1 hwmem
        have hvw : v = w := mem_unique_nodup hnd hmem hwdone
        simp only [linGet]
        rw [hp]
        show OptionBucket.get (s.getD i none) a = some v
        rw [hoi]
        simp [OptionBucket.get, hvw]
      · simp [OptionBucket.get, hk] at hpi

end LinMapLemmas

section SaturationLemmas

variable {K V : Type} [DecidableEq K]

omit [DecidableEq K] in
theorem linInsertList_ok {hash : K → Nat} (kvs : List (K × V)) :
    ∀ (s : List (Option (K × V))) (done : List (K × V)),
      (s.filterMap id).Perm done →
      done.length + kvs.length ≤ s.length →
      ∃ t, linInsertList hash s kvs = Except.ok t ∧ t.length = s.length ∧
        (t.filterMap id).Perm (done ++ kvs) := by
  induction kvs with
  | nil =>
    intro s done hperm _
    exact ⟨s, rfl, rfl, by simpa using hperm⟩
  | cons kv rest ih =>
    intro s done hperm hlen
    have hlt : (s.filterMap id).length < s.length := by
      have hl := hperm.length_eq
      simp only [List.length_cons] at hlen
      omega
    obtain ⟨i, hi, hempty, hins⟩ :=
      @linInsert_into_empty K V hash s kv.1 kv.2 (exists_empty_slot hlt)
    have hperm' : ((s.set i (some (kv.1, kv.2))).filterMap id).Perm (done ++ [kv]) := by
      refine (filterMap_set_none hi hempty).trans ?_
      exact (hperm.cons kv).trans (List.perm_append_singleton kv done).symm
    have hlen' : (done ++ [kv]).length + rest.length ≤ (s.set i (some (kv.1, kv.2))).length := by
      simp only [List.length_append, List.length_singleton, List.length_set,
        List.length_cons, List.length_nil] at hlen ⊢
      omega
    obtain ⟨t, hrun, htl, htperm⟩ := ih (s.set i (some (kv.1, kv.2))) (done ++ [kv]) hperm' hlen'
    refine ⟨t, ?_, ?_, ?_⟩
    · show (match linInsert hash s kv.1 kv.2 with
        | Except.ok s' => linInsertList hash s' rest
        | Except.error e => Except.error e) = Except.ok t
      rw [hins]
      exact hrun
    · rw [htl]
      simp [List.length_set]
    · have hre : (done ++ [kv]) ++ rest = done ++ kv :: rest := by simp
      rw [hre] at htperm
      exact htperm

end SaturationLemmas

section ChainInvLemmas

variable {K V : Type} [DecidableEq K]

omit [DecidableEq K] in
theorem chainInv_fresh (hash : K → Nat) (n : Nat) :
    ChainInv hash ([] : List (K × V)) (freshChain K V n) := by
  intro j _
  rw [freshChain, getD_replicate]
  constructor
  · simp [NodupKeys]
  · intro kv
    simp

theorem chainInsert_inv {hash : K → Nat} {done : List (K × V)} {s : List (List (K × V))}
    {k : K} {v : V} (h0 : 0 < s.length) (hinv : ChainInv hash done s)
    (hfresh : k ∉ done.map Prod.fst) :
    chainInsert hash s k v =
      Except.ok (s.set (get_addr hash s.length k)
        (s.getD (get_addr hash s.length k) [] ++ [(k, v)])) ∧
    ChainInv hash (done ++ [(k, v)])
      (s.set (get_addr hash s.length k)
        (s.getD (get_addr hash s.length k) [] ++ [(k, v)])) := by
  set a := get_addr hash s.length k with ha_def
  have ha : a < s.length := get_addr_lt k h0
  obtain ⟨hbnd, hbmem⟩ := hinv a ha
  have hnok : ∀ p ∈ s.getD a [], p.1 ≠ k := by
    intro p hp hc
    have hdone : p ∈ done := ((hbmem p).1 hp).1
    exact hfresh (List.mem_map.2 ⟨p, hdone, hc⟩)
  have hio : VecBucket.index_of (s.getD a []) k = none := index_of_none_iff.2 hnok
  have hpush : VecBucket.push (s.getD a []) k v = s.getD a [] ++ [(k, v)] := by
    unfold VecBucket.push VecBucket.insert
    rw [hio]
  constructor
  · rw [chainInsert_ok hash s k v h0, ← ha_def, hpush]
  · intro j hj
    have hlen : (s.set a (s.getD a [] ++ [(k, v)])).length = s.length := by
      simp [List.length_set]
    rw [hlen] at hj
    by_cases hja : j = a
    · subst hja
      rw [getD_set_self _ _ _ _ ha]
      constructor
      · rw [← hpush, VecBucket.push]
        exact insert_nodup hbnd
      · intro kv
        rw [hlen, List.mem_append, List.mem_singleton, hbmem kv, List.mem_append,
          List.mem_singleton]
        constructor
        · rintro (⟨hd, haddr⟩ | rfl)
          · exact ⟨Or.inl hd, haddr⟩
          · exact ⟨Or.inr rfl, rfl⟩
        · rintro ⟨hd | rfl, haddr⟩
          · exact Or.inl ⟨hd, haddr⟩
          · exact Or.inr rfl
    · rw [getD_set_ne _ _ _ _ _ (fun hc => hja hc.symm)]
      obtain ⟨hjnd, hjmem⟩ := hinv j hj
      refine ⟨hjnd, ?_⟩
      intro kv
      rw [hlen, hjmem kv, List.mem_append, List.mem_singleton]
      constructor
      · rintro ⟨hd, haddr⟩
        exact ⟨Or.inl hd, haddr⟩
      · rintro ⟨hd | rfl, haddr⟩
        · exact ⟨hd, haddr⟩
        · exact absurd (ha_def.trans haddr).symm hja

theorem chainInsertList_inv {hash : K → Nat} (kvs : List (K × V)) :
    ∀ (s : List (List (K × V))) (done : List (K × V)),
      0 < s.length → ChainInv hash done s →
      ((done ++ kvs).map Prod.fst).Nodup →
      ∃ t, chainInsertList hash s kvs = Except.ok t ∧ t.length = s.length ∧
        ChainInv hash (done ++ kvs) t := by
  induction kvs with
  | nil =>
    intro s done _ hinv _
    exact ⟨s, rfl, rfl, by simpa using hinv⟩
  | cons kv rest ih =>
    intro s done h0 hinv hnd
    have hfresh : kv.1 ∉ done.map Prod.fst := by
      intro hc
      have : ((done ++ kv :: rest).map Prod.fst) =
          done.map Prod.fst ++ kv.1 :: rest.map Prod.fst := by simp
      rw [this] at hnd
      have hmid := List.nodup_middle.1 hnd
      exact (List.nodup_cons.1 hmid).1 (List.mem_append.2 (Or.inl hc))
    obtain ⟨hins, hinv'⟩ := chainInsert_inv (v := kv.2) h0 hinv hfresh
    have h0' : 0 < (s.set (get_addr hash s.length kv.1)
        (s.getD (get_addr hash s.length kv.1) [] ++ [(kv.1, kv.2)])).length := by
      simpa [List.length_set] using h0
    have hnd' : (((done ++ [kv]) ++ rest).map Prod.fst).Nodup := by
      have : (done ++ [kv]) ++ rest = done ++ kv :: rest := by simp
      rw [this]
      exact hnd
    obtain ⟨t, hrun, htl, htinv⟩ := ih _ (done ++ [kv]) h0' hinv' hnd'
    refine ⟨t, ?_, ?_, ?_⟩
    · show (match chainInsert hash s kv.1 kv.2 with
        | Except.ok s' => chainInsertList hash s' rest
        | Except.error e => Except.error e) = Except.ok t
      rw [hins]
      exact hrun
    · rw [htl]
      simp [List.length_set]
    · have hre : (done ++ [kv]) ++ rest = done ++ kv :: rest := by simp
      rw [hre] at htinv
      exact htinv

theorem chainGet_of_inv {hash : K → Nat} {done : List (K × V)} {s : List (List (K × V))}
    {k : K} {v : V} (h0 : 0 < s.length) (hinv : ChainInv hash done s)
    (hmem : (k, v) ∈ done) : chainGet hash s k = some v := by
  have ha : get_addr hash s.length k < s.length := get_addr_lt k h0
  obtain ⟨hbnd, hbmem⟩ := hinv (get_addr hash s.length k) ha
  have hbucket : (k, v) ∈ s.getD (get_addr hash s.length k) [] :=
    (hbmem (k, v)).2 ⟨hmem, rfl⟩
  exact chainGet_at_addr h0 (get_of_mem_nodup hbnd hbucket)

end ChainInvLemmas

section CountLemmas

variable {K V : Type} [DecidableEq K]

theorem chainCountKey_cons (b : List (K × V)) (rest : List (List (K × V))) (k : K) :
    chainCountKey (b :: rest) k = bucketCountKey b k + chainCountKey rest k := by
  simp [chainCountKey]

theorem bucketCountKey_zero_of_no_key {b : List (K × V)} {k : K}
    (h : ∀ p ∈ b, p.1 ≠ k) : bucketCountKey b k = 0 := by
  rw [bucketCountKey]
  have : b.filter (fun p => decide (p.1 = k)) = [] := by
    rw [List.filter_eq_nil_iff]
    intro p hp
    simpa using h p hp
  rw [this]
  rfl

theorem chainCountKey_zero {s : List (List (K × V))} {k : K}
    (h : ∀ j, j < s.length → bucketCountKey (s.getD j []) k = 0) :
    chainCountKey s k = 0 := by
  apply List.sum_eq_zero
  intro x hx
  rcases List.mem_map.1 hx with ⟨b, hb, rfl⟩
  rcases List.mem_iff_get?.1 hb with ⟨j, hj⟩
  have hjlt : j < s.length := (List.get?_eq_some.1 hj).1
  have hgd : s.getD j [] = b := by
    rw [List.getD_eq_getElem?_getD, ← List.get?_eq_getElem?, hj]
    rfl
  rw [← hgd]
  exact h j hjlt

theorem chainCountKey_single {s : List (List (K × V))} {k : K} {a : Nat}
    (ha : a < s.length)
    (h : ∀ j, j < s.length → j ≠ a → bucketCountKey (s.getD j []) k = 0) :
    chainCountKey s k = bucketCountKey (s.getD a []) k := by
  induction s generalizing a with
  | nil => simp at ha
  | cons b rest ih =>
    cases a with
    | zero =>
      have hrest : chainCountKey rest k = 0 := by
        apply chainCountKey_zero
        intro j hj
        exact h (j + 1) (by simpa using hj) (by simp)
      rw [chainCountKey_cons, hrest]
      rfl
    | succ a' =>
      have hb : bucketCountKey b k = 0 := h 0 (by simp) (by simp)
      have hrest := ih (a := a') (by simpa using ha)
        (fun j hj hne => h (j + 1) (by simpa using hj) (by simpa using hne))
      rw [chainCountKey_cons, hb, hrest]
      simp [List.getD]

end CountLemmas

/-- C7: address-computation determinism.  `get_addr` is the composition of the
pure hash function with `compress` at the fixed bucket-list length, so two
calls agree, and equal keys yield equal hash values and hence equal
addresses. -/
theorem C7_addr_determinism {K : Type} (hash : K → Nat) (len : Nat) (k1 k2 : K)
    (h : k1 = k2) :
    hash k1 = hash k2 ∧ get_addr hash len k1 = get_addr hash len k2 := by
  subst h
  exact ⟨rfl, rfl⟩

/-- Witness for C7 at a concrete hash, length and key. -/
theorem C7_addr_determinism_witness :
    (fun n : Nat => n + 3) 5 = (fun n : Nat => n + 3) 5 ∧
    get_addr (fun n : Nat => n + 3) 7 5 = get_addr (fun n : Nat => n + 3) 7 5 :=
  C7_addr_determinism (fun n => n + 3) 7 5 5 rfl

/-- C8: with a non-empty bucket list, `get_addr` always lands in
`[0, len)` (it is `hash k % len`, and the `len > 0` precondition is exactly
what rules out the division by zero), and any index the probing search returns
is a valid bucket index, so `insert` and `get` only touch valid buckets. -/
theorem C8_addr_in_range {K : Type} (hash : K → Nat) (len : Nat) (k : K)
    (h : 0 < len) :
    get_addr hash len k < len ∧
    ∀ (addr : Nat) (p : Nat → Bool) (i : Nat), probe len addr p = some i → i < len :=
  ⟨get_addr_lt k h, fun _ _ _ hp => (probe_some hp).1⟩

/-- Witness for C8 at a concrete hash, length and key. -/
theorem C8_addr_in_range_witness :
    get_addr (fun n : Nat => n * 13) 4 9 < 4 ∧
    ∀ (addr : Nat) (p : Nat → Bool) (i : Nat), probe 4 addr p = some i → i < 4 :=
  C8_addr_in_range (fun n => n * 13) 4 9 (by decide)

/-- C9: miss on empty.  On a freshly constructed map of any size, in both the
chaining and the single-slot configurations, `get` returns `none` for every
key.  `get` returns an `Option` by type, so the miss is the ordinary
absent-value result, not an error. -/
theorem C9_miss_on_empty {K V : Type} [DecidableEq K] (hash : K → Nat) (n : Nat)
    (k : K) :
    chainGet hash (freshChain K V n) k = none ∧
    linGet hash (freshLin K V n) k = none := by
  constructor
  · have hp : probe (freshChain K V n).length
        (get_addr hash (freshChain K V n).length k)
        (fun i => (VecBucket.get ((freshChain K V n).getD i []) k).isSome) = none := by
      rw [probe]
      apply List.find?_eq_none.2
      intro j _
      show ¬((VecBucket.get ((freshChain K V n).getD j []) k).isSome = true)
      rw [freshChain, getD_replicate]
      simp [VecBucket.get]
    simp only [chainGet]
    rw [hp]
    rfl
  · have hp : probe (freshLin K V n).length
        (get_addr hash (freshLin K V n).length k)
        (fun i => (OptionBucket.get ((freshLin K V n).getD i none) k).isSome) = none := by
      rw [probe]
      apply List.find?_eq_none.2
      intro j _
      show ¬((OptionBucket.get ((freshLin K V n).getD j none) k).isSome = true)
      rw [freshLin, getD_replicate]
      simp [OptionBucket.get]
    simp only [linGet]
    rw [hp]
    rfl

/-- C1 counterexample: in the single-slot (`OptionBucket`) configuration the
round-trip claim fails on a reachable state.  With the identity hash and three
slots, inserting `(0,10)`, `(3,20)` and then `(3,30)` (all addresses compress
to 0) leaves the stale pair `(3,20)` in an earlier probe slot than the new
`(3,30)`, because the key-free `!reached_max_capacity` probe steers the
re-insert of key 3 into a fresh empty slot instead of its existing one; `get 3`
then returns `some 20`, not `some 30`, although key 3 was not inserted again
after `(3,30)`. -/
theorem C1_counterexample :
    linInsertList (fun n => n) (freshLin Nat Nat 3) [(0, 10), (3, 20), (3, 30)] =
      Except.ok [some (0, 10), some (3, 20), some (3, 30)] ∧
    linGet (fun n => n) [some (0, 10), some (3, 20), some (3, 30)] 3 = some 20 ∧
    (some 20 : Option Nat) ≠ some 30 :=
  ⟨rfl, rfl, by decide⟩

/-- C1 (amended): in the chaining (`VecBucket`) configuration, for every map
state with a non-empty bucket list whose buckets satisfy the key-uniqueness
invariant, `insert(k, v)` succeeds and an immediately following `get(k)`
returns `some v`.  (The single-slot configuration violates the claim as
stated, see the counterexample: there the round trip can return a stale value
when the key already occupies an earlier probe slot.) -/
theorem C1_round_trip_chain {K V : Type} [DecidableEq K] (hash : K → Nat)
    (s : List (List (K × V))) (k : K) (v : V) (h0 : 0 < s.length)
    (hnd : ∀ b ∈ s, NodupKeys b) :
    ∃ s', chainInsert hash s k v = Except.ok s' ∧ chainGet hash s' k = some v := by
  refine ⟨_, chainInsert_ok hash s k v h0, ?_⟩
  have hbnd : NodupKeys (s.getD (get_addr hash s.length k) []) :=
    hnd _ (getD_mem_of_lt _ _ _ (get_addr_lt k h0))
  have hlen' : (s.set (get_addr hash s.length k)
      (VecBucket.push (s.getD (get_addr hash s.length k) []) k v)).length = s.length := by
    simp [List.length_set]
  apply chainGet_at_addr (by rw [hlen']; exact h0)
  rw [hlen', getD_set_self _ _ _ _ (get_addr_lt k h0)]
  exact insert_get_self hbnd

/-- Witness for the amended C1 on a concrete one-bucket chaining map. -/
theorem C1_round_trip_chain_witness :
    ∃ s', chainInsert (fun n => n) [([(7, 8)] : List (Nat × Nat))] 0 1 = Except.ok s' ∧
      chainGet (fun n => n) s' 0 = some 1 :=
  C1_round_trip_chain (fun n => n) [[(7, 8)]] 0 1 (by decide) (by decide)

/-- C3 counterexample: in the single-slot (`OptionBucket`) configuration,
inserting `(0,10)` and then `(0,20)` into a fresh two-slot map with the
identity hash leaves TWO entries for key 0 (the key-free `!reached_max_capacity`
probe sends the second insert to the next empty slot instead of overwriting),
and `get 0` returns the first value `some 10`, not `some 20`. -/
theorem C3_counterexample :
    linInsertList (fun n => n) (freshLin Nat Nat 2) [(0, 10), (0, 20)] =
      Except.ok [some (0, 10), some (0, 20)] ∧
    linGet (fun n => n) [some (0, 10), some (0, 20)] 0 = some 10 ∧
    linCountKey [some (0, 10), some (0, 20)] 0 = 2 :=
  ⟨rfl, rfl, rfl⟩

/-- C3 (amended): in the chaining (`VecBucket`/`SmallVecBucket`)
configuration, for every state with a non-empty bucket list, per-bucket
key-uniqueness, and key `k` stored only at its own address (as in every state
reachable by inserts), inserting `(k, v1)` then `(k, v2)` leaves exactly one
entry for `k` in the whole map and `get k` returns `some v2`.  (The
single-slot configuration violates the claim as stated, see the
counterexample: a re-insert occupies a second slot and `get` returns the
first-probed, older value.) -/
theorem C3_overwrite_chain {K V : Type} [DecidableEq K] (hash : K → Nat)
    (s : List (List (K × V))) (k : K) (v1 v2 : V) (h0 : 0 < s.length)
    (hnd : ∀ b ∈ s, NodupKeys b)
    (hplace : ∀ j, j < s.length → ∀ w : V, (k, w) ∈ s.getD j [] →
      j = get_addr hash s.length k) :
    ∃ s1 s2, chainInsert hash s k v1 = Except.ok s1 ∧
      chainInsert hash s1 k v2 = Except.ok s2 ∧
      chainGet hash s2 k = some v2 ∧ chainCountKey s2 k = 1 := by
  have ha : get_addr hash s.length k < s.length := get_addr_lt k h0
  have hbnd : NodupKeys (s.getD (get_addr hash s.length k) []) :=
    hnd _ (getD_mem_of_lt _ _ _ ha)
  set a := get_addr hash s.length k with hadef
  set b1 := VecBucket.push (s.getD a []) k v1 with hb1def
  set s1 := s.set a b1 with hs1def
  have hlen1 : s1.length = s.length := by rw [hs1def]; simp [List.length_set]
  have h0' : 0 < s1.length := by rw [hlen1]; exact h0
  have ha1 : a < s1.length := by rw [hlen1]; exact ha
  have haddr1 : get_addr hash s1.length k = a := by rw [hlen1, hadef]
  have hb1 : s1.getD a [] = b1 := by
    rw [hs1def]
    exact getD_set_self _ _ _ _ ha
  have hins2 := chainInsert_ok hash s1 k v2 h0'
  rw [haddr1, hb1] at hins2
  set b2 := VecBucket.push b1 k v2 with hb2def
  set s2 := s1.set a b2 with hs2def
  have hlen2 : s2.length = s.length := by
    rw [hs2def]
    simp only [List.length_set]
    exact hlen1
  have ha2 : a < s2.length := by rw [hlen2]; exact ha
  have hnd1 : NodupKeys b1 := by
    rw [hb1def]
    exact insert_nodup hbnd
  have hb2 : s2.getD a [] = b2 := by
    rw [hs2def]
    exact getD_set_self _ _ _ _ ha1
  refine ⟨s1, s2, chainInsert_ok hash s k v1 h0, hins2, ?_, ?_⟩
  · apply chainGet_at_addr (by rw [hlen2]; exact h0)
    have haddr2 : get_addr hash s2.length k = a := by rw [hlen2, hadef]
    rw [haddr2, hb2, hb2def]
    exact insert_get_self hnd1
  · have hothers : ∀ j, j < s2.length → j ≠ a → bucketCountKey (s2.getD j []) k = 0 := by
      intro j hj hja
      have hgd : s2.getD j [] = s.getD j [] := by
        rw [hs2def, getD_set_ne _ _ _ _ _ (fun hc => hja hc.symm), hs1def,
          getD_set_ne _ _ _ _ _ (fun hc => hja hc.symm)]
      rw [hgd]
      apply bucketCountKey_zero_of_no_key
      intro p hp hc
      have hj' : j < s.length := by rw [← hlen2]; exact hj
      have hkp : (k, p.2) ∈ s.getD j [] := by
        have hpe : (k, p.2) = p := by rw [← hc]
        rw [hpe]
        exact hp
      have hjeq : j = get_addr hash s.length k := hplace j hj' p.2 hkp
      exact hja (hjeq.trans hadef.symm)
    rw [chainCountKey_single ha2 hothers, hb2, hb2def]
    exact insert_countKey hnd1

/-- Witness for the amended C3 on a concrete one-bucket chaining map. -/
theorem C3_overwrite_chain_witness :
    ∃ s1 s2, chainInsert (fun n => n) [([(9, 9)] : List (Nat × Nat))] 0 1 = Except.ok s1 ∧
      chainInsert (fun n => n) s1 0 2 = Except.ok s2 ∧
      chainGet (fun n => n) s2 0 = some 2 ∧ chainCountKey s2 0 = 1 :=
  C3_overwrite_chain (fun n => n) [[(9, 9)]] 0 1 2 (by decide) (by decide)
    (by
      intro j hj w _
      show j = 0
      have hj' : j < 1 := hj
      omega)

theorem filterMap_freshLin (K V : Type) (n : Nat) :
    (freshLin K V n).filterMap id = [] := by
  induction n with
  | zero => rfl
  | succ m ih =>
    rw [freshLin, List.replicate_succ, List.filterMap_cons_none rfl]
    exact ih

/-- C2: capacity-bounded saturation of the fixed-capacity single-slot
configuration.  Inserting `N` distinct keys into a fresh `N`-slot map
succeeds, every inserted key is afterwards retrievable with its value, and a
further insert with a fresh key fails with the capacity-exhaustion outcome —
the `Except.error` carrying the source's panic message, an outcome distinct by
type and by construction from the `Option.none` of a lookup miss.  The failing
insert produces no new state, so the saturated state `t` (and with it every
stored entry, still retrievable per the second conjunct) is left intact. -/
theorem C2_saturation {K V : Type} [DecidableEq K] (hash : K → Nat) (N : Nat)
    (kvs : List (K × V)) (hlen : kvs.length = N)
    (hnd : (kvs.map Prod.fst).Nodup) :
    ∃ t, linInsertList hash (freshLin K V N) kvs = Except.ok t ∧
      (∀ kv ∈ kvs, linGet hash t kv.1 = some kv.2) ∧
      (∀ (k : K) (v : V), k ∉ kvs.map Prod.fst →
        linInsert hash t k v = Except.error "PrimitiveMap capacity is exhausted") := by
  obtain ⟨t, hrun, htl, htperm⟩ := linInsertList_ok kvs (freshLin K V N) []
    (by rw [filterMap_freshLin]) (by simp [freshLin, hlen])
  rw [List.nil_append] at htperm
  refine ⟨t, hrun, ?_, ?_⟩
  · intro kv hkv
    exact linGet_of_perm htperm hnd hkv
  · intro k v _
    apply linInsert_full
    apply full_no_empty
    rw [htperm.length_eq, htl]
    simp [freshLin, hlen]

/-- Witness for C2: a two-slot single-slot map saturated with two distinct
keys. -/
theorem C2_saturation_witness :
    ∃ t, linInsertList (fun n => n) (freshLin Nat Nat 2) [(5, 50), (6, 60)] = Except.ok t ∧
      (∀ kv ∈ [(5, 50), (6, 60)], linGet (fun n => n) t kv.1 = some kv.2) ∧
      (∀ (k v : Nat), k ∉ [(5, 50), (6, 60)].map Prod.fst →
        linInsert (fun n => n) t k v = Except.error "PrimitiveMap capacity is exhausted") :=
  C2_saturation (fun n => n) 2 [(5, 50), (6, 60)] rfl (by decide)

/-- C4: `VecBucket::insert` on a bucket satisfying the key-uniqueness
invariant (spec §3, established and preserved per claim C6) returns the value
previously stored for `k` when a pair with key `k` was present, and `none`
when no pair with key `k` was present; afterwards the bucket holds exactly one
pair with key `k`, whose value is `v` (the old pair having been removed). -/
theorem C4_bucket_insert {K V : Type} [DecidableEq K] (b : List (K × V)) (k : K)
    (v : V) (hnd : NodupKeys b) :
    (∀ w, (k, w) ∈ b → (VecBucket.insert b k v).1 = some w) ∧
    ((∀ p ∈ b, p.1 ≠ k) → (VecBucket.insert b k v).1 = none) ∧
    bucketCountKey (VecBucket.insert b k v).2 k = 1 ∧
    (∀ w, (k, w) ∈ (VecBucket.insert b k v).2 ↔ w = v) := by
  refine ⟨?_, ?_, insert_countKey hnd, ?_⟩
  · intro w hw
    rw [insert_fst]
    exact get_of_mem_nodup hnd hw
  · intro h
    rw [insert_fst]
    exact get_eq_none_iff.2 h
  · intro w
    obtain ⟨b2, heq, hnok, _, _⟩ := insert_decomp v hnd
    rw [heq]
    constructor
    · intro hmem
      rcases List.mem_append.1 hmem with h1 | h1
      · exact absurd rfl (hnok _ h1)
      · have := List.mem_singleton.1 h1
        exact (Prod.mk.injEq _ _ _ _ ▸ this).2
    · rintro rfl
      exact List.mem_append.2 (Or.inr (List.mem_singleton.2 rfl))

/-- Witness for C4 on a concrete bucket holding keys 1 and 2. -/
theorem C4_bucket_insert_witness :
    (∀ w, ((1 : Nat), w) ∈ [((1 : Nat), (10 : Nat)), (2, 20)] →
      (VecBucket.insert [((1 : Nat), (10 : Nat)), (2, 20)] 1 99).1 = some w) ∧
    ((∀ p ∈ [((1 : Nat), (10 : Nat)), (2, 20)], p.1 ≠ 1) →
      (VecBucket.insert [((1 : Nat), (10 : Nat)), (2, 20)] 1 99).1 = none) ∧
    bucketCountKey (VecBucket.insert [((1 : Nat), (10 : Nat)), (2, 20)] 1 99).2 1 = 1 ∧
    (∀ w, ((1 : Nat), w) ∈ (VecBucket.insert [((1 : Nat), (10 : Nat)), (2, 20)] 1 99).2 ↔
      w = 99) :=
  C4_bucket_insert [(1, 10), (2, 20)] 1 99 (by decide)

/-- C5: `VecBucket::reached_max_capacity` is constantly `false`, so in a
chaining configuration with a non-empty bucket list `insert` always finds a
non-full bucket (never the capacity-exhaustion outcome), and inserting any
list of distinct keys into a fresh map leaves every key retrievable with its
correct value. -/
theorem C5_unbounded_chain {K V : Type} [DecidableEq K] (hash : K → Nat) (N : Nat)
    (kvs : List (K × V)) (hN : 0 < N) (hnd : (kvs.map Prod.fst).Nodup) :
    (∀ b : List (K × V), VecBucket.reached_max_capacity b = false) ∧
    (∀ (s : List (List (K × V))) (k : K) (v : V), 0 < s.length →
      ∃ s', chainInsert hash s k v = Except.ok s') ∧
    (∃ t, chainInsertList hash (freshChain K V N) kvs = Except.ok t ∧
      ∀ kv ∈ kvs, chainGet hash t kv.1 = some kv.2) := by
  refine ⟨fun _ => rfl, ?_, ?_⟩
  · intro s k v h0
    exact ⟨_, chainInsert_ok hash s k v h0⟩
  · obtain ⟨t, hrun, htl, hinv⟩ := chainInsertList_inv kvs (freshChain K V N) []
      (by simpa [freshChain] using hN) (chainInv_fresh hash N) (by simpa using hnd)
    rw [List.nil_append] at hinv
    refine ⟨t, hrun, ?_⟩
    intro kv hkv
    have h0t : 0 < t.length := by
      rw [htl]
      simp only [freshChain, List.length_replicate]
      exact hN
    exact chainGet_of_inv h0t hinv hkv

/-- Witness for C5: a fresh two-bucket chaining map receiving two distinct
keys. -/
theorem C5_unbounded_chain_witness :
    (∀ b : List (Nat × Nat), VecBucket.reached_max_capacity b = false) ∧
    (∀ (s : List (List (Nat × Nat))) (k v : Nat), 0 < s.length →
      ∃ s', chainInsert (fun n => n) s k v = Except.ok s') ∧
    (∃ t, chainInsertList (fun n => n) (freshChain Nat Nat 2) [(0, 1), (3, 4)] = Except.ok t ∧
      ∀ kv ∈ [(0, 1), (3, 4)], chainGet (fun n => n) t kv.1 = some kv.2) :=
  C5_unbounded_chain (fun n => n) 2 [(0, 1), (3, 4)] (by decide) (by decide)

/-- C6: the key-uniqueness invariant (no two stored pairs share a key) holds
for a fresh bucket, is preserved by `VecBucket::insert`, is untouched by any
value-only update (which is all that writing through the `get_mut` reference
can do; `get`, `get_mut` and `reached_max_capacity` take the bucket immutably
or return only a value reference), and is preserved bucket-wise by a
map-level `PrimitiveMap::insert` in the chaining configuration. -/
theorem C6_key_uniqueness {K V : Type} [DecidableEq K] (hash : K → Nat)
    (b : List (K × V)) (k : K) (v : V) (f : V → V) (s s' : List (List (K × V)))
    (hb : NodupKeys b) (hs : ∀ x ∈ s, NodupKeys x)
    (hins : chainInsert hash s k v = Except.ok s') :
    NodupKeys (VecBucket.new (K := K) (V := V)) ∧
    NodupKeys (VecBucket.insert b k v).2 ∧
    NodupKeys (b.map (fun p => (p.1, f p.2))) ∧
    ∀ x ∈ s', NodupKeys x := by
  refine ⟨by simp [VecBucket.new, NodupKeys], insert_nodup hb, ?_, ?_⟩
  · have hkeys : (b.map (fun p => (p.1, f p.2))).map Prod.fst = b.map Prod.fst := by
      rw [List.map_map]
      rfl
    rw [NodupKeys, hkeys]
    exact hb
  · exact chainInsert_preserves_nodup hs hins

/-- Witness for C6 on a concrete bucket and map. -/
theorem C6_key_uniqueness_witness :
    NodupKeys (VecBucket.new (K := Nat) (V := Nat)) ∧
    NodupKeys (VecBucket.insert [((2 : Nat), (5 : Nat))] 2 7).2 ∧
    NodupKeys ([((2 : Nat), (5 : Nat))].map (fun p => (p.1, p.2 + 1))) ∧
    ∀ x ∈ [[((0 : Nat), (1 : Nat)), (2, 7)]], NodupKeys x :=
  C6_key_uniqueness (fun n => n) [(2, 5)] 2 7 (fun w => w + 1) [[(0, 1)]]
    [[(0, 1), (2, 7)]] (by decide) (by decide) (by rfl)

/-- C10: frame property of `VecBucket::insert`.  A pair whose key differs from
the inserted key is present afterwards exactly when it was present before
(its contents untouched, only its position possibly changed by the
swap-remove); when the key was absent the bucket grows by exactly one, and
when it was present the length is unchanged. -/
theorem C10_insert_frame {K V : Type} [DecidableEq K] (b : List (K × V))
    (k kp : K) (v vp : V) (hne : kp ≠ k) :
    ((kp, vp) ∈ (VecBucket.insert b k v).2 ↔ (kp, vp) ∈ b) ∧
    (VecBucket.index_of b k = none → (VecBucket.insert b k v).2.length = b.length + 1) ∧
    (∀ i, VecBucket.index_of b k = some i → (VecBucket.insert b k v).2.length = b.length) := by
  cases hio : VecBucket.index_of b k with
  | none =>
    have hres : (VecBucket.insert b k v).2 = b ++ [(k, v)] := by
      unfold VecBucket.insert
      rw [hio]
    refine ⟨?_, fun _ => by rw [hres]; simp, fun i hi => Option.noConfusion hi⟩
    rw [hres]
    constructor
    · intro hmem
      rcases List.mem_append.1 hmem with h1 | h1
      · exact h1
      · have := List.mem_singleton.1 h1
        exact absurd (Prod.mk.injEq _ _ _ _ ▸ this).1 hne
    · intro hmem
      exact List.mem_append.2 (Or.inl hmem)
  | some i =>
    obtain ⟨w, hw, _⟩ := index_of_some hio
    have hlt : i < b.length := (List.get?_eq_some.1 hw).1
    have hres : (VecBucket.insert b k v).2 = swapRemove b i ++ [(k, v)] := by
      unfold VecBucket.insert
      rw [hio]
    have hperm := swapRemove_perm b i hlt
    have hdecomp : b = b.take i ++ (k, w) :: b.drop (i + 1) := take_get_drop hw
    have herase : b.eraseIdx i = b.take i ++ b.drop (i + 1) :=
      List.eraseIdx_eq_take_drop_succ b i
    refine ⟨?_, fun hnone => Option.noConfusion hnone, fun j _ => ?_⟩
    · rw [hres]
      constructor
      · intro hmem
        rcases List.mem_append.1 hmem with h1 | h1
        · have h2 : (kp, vp) ∈ b.eraseIdx i := hperm.mem_iff.1 h1
          rw [herase] at h2
          rw [hdecomp]
          rcases List.mem_append.1 h2 with h3 | h3
          · exact List.mem_append.2 (Or.inl h3)
          · exact List.mem_append.2 (Or.inr (List.mem_cons_of_mem _ h3))
        · have h4 := List.mem_singleton.1 h1
          exact absurd (congrArg Prod.fst h4) hne
      · intro hmem
        rw [hdecomp] at hmem
        apply List.mem_append.2
        apply Or.inl
        apply hperm.mem_iff.2
        rw [herase]
        rcases List.mem_append.1 hmem with h3 | h3
        · exact List.mem_append.2 (Or.inl h3)
        · rcases List.mem_cons.1 h3 with h4 | h4
          · exact absurd (congrArg Prod.fst h4) hne
          · exact List.mem_append.2 (Or.inr h4)
    · rw [hres, List.length_append]
      have hL : (swapRemove b i).length = b.length - 1 := by
        rw [hperm.length_eq, herase, List.length_append, List.length_take, List.length_drop]
        omega
      rw [hL]
      simp only [List.length_singleton]
      omega

/-- Witness for C10 on a concrete bucket: key 0 is re-inserted, the pair for
key 1 survives untouched. -/
theorem C10_insert_frame_witness :
    (((1 : Nat), (10 : Nat)) ∈ (VecBucket.insert [((1 : Nat), (10 : Nat)), (0, 5)] 0 6).2 ↔
      ((1 : Nat), (10 : Nat)) ∈ [((1 : Nat), (10 : Nat)), (0, 5)]) ∧
    (VecBucket.index_of [((1 : Nat), (10 : Nat)), (0, 5)] 0 = none →
      (VecBucket.insert [((1 : Nat), (10 : Nat)), (0, 5)] 0 6).2.length =
        [((1 : Nat), (10 : Nat)), (0, 5)].length + 1) ∧
    (∀ i, VecBucket.index_of [((1 : Nat), (10 : Nat)), (0, 5)] 0 = some i →
      (VecBucket.insert [((1 : Nat), (10 : Nat)), (0, 5)] 0 6).2.length =
        [((1 : Nat), (10 : Nat)), (0, 5)].length) :=
  C10_insert_frame [(1, 10), (0, 5)] 0 1 6 10 (by decide)
